/-
Verification of ralph-tui orchestrator components against their
natural-language specification.

The TypeScript sources are shallowly embedded: pure functions become Lean
functions over `String` / `List` / `Nat`; JavaScript numbers that only hold
task counts are modelled as `Nat`; filesystem paths are modelled as lists of
segments of a normalized absolute path; effectful routines (git commands,
file copies) become explicit state-passing functions over small environment
records that carry the outcome of each external call, together with the list
of operations performed.
-/
import Mathlib

namespace RalphTui

/-! ### Tracker-mismatch warning (src/commands/resume.ts)

Modelled from the spec: the implementation file src/commands/resume.ts is not
in the source tree (only its test file is).  The spec states the warning is
emitted iff `engineTaskCount == 0 && sessionKnownTaskCount > 0`; the tests
exercise exactly this truth table.  Task counts are non-negative integers,
modelled as `Nat`. -/
def shouldWarnAboutTrackerMismatch (engineTaskCount sessionKnownTaskCount : Nat) : Bool :=
  engineTaskCount == 0 && sessionKnownTaskCount > 0

/-! ### Fast-path conflict resolution (src/parallel/ai-resolver.ts) -/

/-- A 3-way merge conflict record (src/parallel/types.ts FileConflict). -/
structure FileConflict where
  filePath : String
  oursContent : String
  theirsContent : String
  baseContent : String
  conflictMarkers : String
deriving DecidableEq, Repr

/-- The character class JavaScript `String.prototype.trim` removes:
WhiteSpace and LineTerminator code points. -/
def jsIsWhitespace (c : Char) : Bool :=
  c.toNat == 0x09 || c.toNat == 0x0A || c.toNat == 0x0B || c.toNat == 0x0C ||
  c.toNat == 0x0D || c.toNat == 0x20 || c.toNat == 0xA0 || c.toNat == 0x1680 ||
  (0x2000 ≤ c.toNat && c.toNat ≤ 0x200A) || c.toNat == 0x2028 || c.toNat == 0x2029 ||
  c.toNat == 0x202F || c.toNat == 0x205F || c.toNat == 0x3000 || c.toNat == 0xFEFF

/-- Model of JavaScript `s.trim()`: strip leading and trailing whitespace. -/
def jsTrim (s : String) : String :=
  String.mk (((s.data.dropWhile jsIsWhitespace).reverse.dropWhile jsIsWhitespace).reverse)

/-- Embedding of `tryFastPathResolution` (src/parallel/ai-resolver.ts).
`null` becomes `none`. -/
def tryFastPathResolution (conflict : FileConflict) : Option String :=
  let oursEmpty := jsTrim conflict.oursContent = ""
  let theirsEmpty := jsTrim conflict.theirsContent = ""
  if oursEmpty ∧ ¬theirsEmpty then
    some conflict.theirsContent
  else if ¬oursEmpty ∧ theirsEmpty then
    some conflict.oursContent
  else if conflict.oursContent = conflict.theirsContent then
    some conflict.oursContent
  else
    none

/-- Word characters matched by the regex class `[\w]`. -/
def isWordChar (c : Char) : Bool :=
  (('a' ≤ c && c ≤ 'z') || ('A' ≤ c && c ≤ 'Z') || ('0' ≤ c && c ≤ '9') || c = '_')

/-- Model of matching `^BTBTBT[\w]*\n([\s\S]*)\nBTBTBT$` (BT = backtick) against a
string: a leading triple-backtick fence with optional language tag, a newline,
the captured body, and a closing newline plus triple backtick at the very end.
Returns the capture group when the whole string matches. -/
def fenceMatch (s : List Char) : Option (List Char) :=
  match s with
  | '`' :: '`' :: '`' :: rest =>
    let afterTag := rest.dropWhile isWordChar
    match afterTag with
    | '\n' :: body =>
      if body.length ≥ 4 then
        let mid := body.take (body.length - 4)
        let tail := body.drop (body.length - 4)
        if tail = ['\n', '`', '`', '`'] then some mid else none
      else none
    | _ => none
  | _ => none

/-- Embedding of `extractResolvedContent` (src/parallel/ai-resolver.ts):
trim stdout, strip a single outer markdown fence, reject empty output. -/
def extractResolvedContent (stdout : String) : Option String :=
  let content := jsTrim stdout
  let content :=
    match fenceMatch content.data with
    | some inner => String.mk inner
    | none => content
  if content.length = 0 then none else some content

/-! ### Agent adapter flag merge (FlagOrderTestPlugin.execute, replicating
BaseAgentPlugin.execute: `allArgs = [...defaultFlags, ...args, ...(options.flags ?? [])]`) -/

/-- `FlagOrderTestPlugin.buildArgs`: emits `--model <m>` when a model is set. -/
def flagOrderBuildArgs (modelFromBuildArgs : Option String) : List String :=
  match modelFromBuildArgs with
  | some m => ["--model", m]
  | none => []

/-- The flag-merge in `FlagOrderTestPlugin.execute`:
default flags, then `buildArgs` output, then engine-injected `options.flags`. -/
def flagOrderTestAllArgs (defaultFlags : List String) (modelFromBuildArgs : Option String)
    (optionsFlags : Option (List String)) : List String :=
  defaultFlags ++ flagOrderBuildArgs modelFromBuildArgs ++ optionsFlags.getD []

/-- Last-flag-wins reading of an argument vector: the value following the last
occurrence of `flag`, as a CLI with "last flag wins" semantics would read it. -/
def lastFlagValue (flag : String) : List String → Option String
  | [] => none
  | [_] => none
  | f :: v :: rest =>
    match lastFlagValue flag (v :: rest) with
    | some x => some x
    | none => if f = flag then some v else none

theorem lastFlagValue_append_pair (flag x : String) :
    ∀ xs : List String, lastFlagValue flag (xs ++ [flag, x]) = some x := by
  intro xs
  induction xs with
  | nil =>
    simp only [List.nil_append, lastFlagValue]
    have h1 : lastFlagValue flag [x] = none := rfl
    simp [h1]
  | cons a xs ih =>
    obtain ⟨b, l, hbl⟩ : ∃ b l, xs ++ [flag, x] = b :: l := by
      cases xs <;> exact ⟨_, _, rfl⟩
    rw [List.cons_append, hbl, lastFlagValue, ← hbl, ih]

/-! ### Theorems for claims C1, C2, C3, C10 -/

/-- C1: the tracker-mismatch warning predicate returns true iff the engine
sees zero tasks while the session records a positive known-task count. -/
theorem shouldWarnAboutTrackerMismatch_iff (e s : Nat) :
    shouldWarnAboutTrackerMismatch e s = true ↔ (e = 0 ∧ 0 < s) := by
  simp [shouldWarnAboutTrackerMismatch]

/-- C2 counterexample: both sides whitespace-only (hence at least one side
whitespace-only) but byte-unequal: the fast path returns no resolution. -/
theorem tryFastPathResolution_two_whitespace_none :
    jsTrim " " = "" ∧ jsTrim "\t" = "" ∧
      tryFastPathResolution ⟨"f.ts", " ", "\t", "", ""⟩ = none := by
  refine ⟨rfl, rfl, ?_⟩
  decide

/-- C2 (amended): if exactly one of ours/theirs is whitespace-only, or the two
sides are byte-equal, the fast-path resolver returns a resolution (no agent is
spawned); when both sides are whitespace-only yet byte-unequal it returns none. -/
theorem tryFastPathResolution_amended (c : FileConflict)
    (h : (jsTrim c.oursContent = "" ∧ jsTrim c.theirsContent ≠ "") ∨
         (jsTrim c.oursContent ≠ "" ∧ jsTrim c.theirsContent = "") ∨
         c.oursContent = c.theirsContent) :
    (tryFastPathResolution c).isSome = true := by
  rcases h with ⟨h1, h2⟩ | ⟨h1, h2⟩ | h1
  · simp [tryFastPathResolution, h1, h2]
  · simp [tryFastPathResolution, h1, h2]
  · simp only [tryFastPathResolution, h1]
    split
    · simp
    · split
      · simp
      · simp

theorem tryFastPathResolution_amended_witness :
    ((jsTrim "" = "" ∧ jsTrim "const x = 1;" ≠ "") ∨
     (jsTrim "" ≠ "" ∧ jsTrim "const x = 1;" = "") ∨
     ("" : String) = "const x = 1;") ∧
    (tryFastPathResolution ⟨"t.ts", "", "const x = 1;", "", ""⟩).isSome = true := by
  constructor
  · left
    constructor
    · rfl
    · decide
  · exact tryFastPathResolution_amended ⟨"t.ts", "", "const x = 1;", "", ""⟩
      (Or.inl ⟨rfl, by decide⟩)

/-- C10: a conflict whose two sides are both the empty string fast-paths to the
empty-string resolution (it is not rejected and not escalated), even though the
agent-path extractor rejects empty output. -/
theorem tryFastPathResolution_both_empty :
    tryFastPathResolution ⟨"t.ts", "", "", "", ""⟩ = some "" ∧
      extractResolvedContent "" = none := by
  constructor
  · decide
  · rfl

/-- C3: the merged argument vector is exactly default flags, then buildArgs
output, then engine-injected flags; hence under last-flag-wins semantics an
engine-injected `--model X` overrides any buildArgs-produced `--model Y`. -/
theorem flagOrderTestAllArgs_spec (d : List String) (m : Option String)
    (e1 : List String) (x : String) :
    flagOrderTestAllArgs d m (some (e1 ++ ["--model", x])) =
      d ++ flagOrderBuildArgs m ++ (e1 ++ ["--model", x]) ∧
    lastFlagValue "--model" (flagOrderTestAllArgs d m (some (e1 ++ ["--model", x]))) =
      some x := by
  constructor
  · rfl
  · have h := lastFlagValue_append_pair "--model" x (d ++ (flagOrderBuildArgs m ++ e1))
    simp only [List.append_assoc] at h
    simp only [flagOrderTestAllArgs, Option.getD_some, List.append_assoc]
    exact h

theorem flagOrderTestAllArgs_spec_witness :
    flagOrderTestAllArgs ["--verbose"] (some "agent-model") (some ["--model", "engine-model"]) =
      ["--verbose", "--model", "agent-model", "--model", "engine-model"] ∧
    lastFlagValue "--model"
      (flagOrderTestAllArgs ["--verbose"] (some "agent-model") (some ["--model", "engine-model"])) =
      some "engine-model" := by
  have h := flagOrderTestAllArgs_spec ["--verbose"] (some "agent-model") [] "engine-model"
  exact ⟨by simpa using h.1, by simpa using h.2⟩

/-! ### Path model for the worktree manager (src/sandbox/wrapper.ts)

POSIX paths are modelled as lists of segments.  `AbsPath` is a normalized
absolute path (what `path.resolve` produces); `PathArg` is a raw path argument
that may be relative.  `path.join`/`path.resolve` normalization (dropping `.`
and empty segments, popping on `..`) is modelled by `normalizeSegs`. -/

/-- A POSIX absolute path as the list of its segments. -/
abbrev AbsPath := List String

/-- A raw path argument: absolute flag plus segments. -/
structure PathArg where
  absolute : Bool
  segs : List String
deriving DecidableEq, Repr

/-- A path segment that survives normalization unchanged. -/
def cleanSeg (s : String) : Bool :=
  ¬(s = "" ∨ s = "." ∨ s = "..")

/-- All segments of the path are normal (true of `path.resolve` output). -/
def CleanPath (p : AbsPath) : Prop :=
  ∀ s ∈ p, cleanSeg s = true

instance (p : AbsPath) : Decidable (CleanPath p) := by
  unfold CleanPath; infer_instance

/-- One step of path normalization: `.` and empty segments vanish, `..` pops. -/
def normStep (acc : List String) (seg : String) : List String :=
  if seg = "" ∨ seg = "." then acc
  else if seg = ".." then acc.dropLast
  else acc ++ [seg]

/-- Normalize a segment sequence into a normalized absolute path. -/
def normalizeSegs (segs : List String) : AbsPath :=
  segs.foldl normStep []

/-- Model of `path.resolve(cwd, p)`. -/
def pathResolve (cwd : AbsPath) (p : PathArg) : AbsPath :=
  normalizeSegs (if p.absolute then p.segs else cwd ++ p.segs)

/-- Model of `path.join(base, rest...)` for an absolute base. -/
def pathJoin (base : AbsPath) (rest : List String) : AbsPath :=
  normalizeSegs (base ++ rest)

/-- Drop the longest common prefix of two segment lists. -/
def dropCommon : List String → List String → List String × List String
  | [], bs => ([], bs)
  | a :: as, [] => (a :: as, [])
  | a :: as, b :: bs => if a = b then dropCommon as bs else (a :: as, b :: bs)

/-- Model of `path.relative(base, target)` for absolute paths: one `..` per
leftover base segment, then the leftover target segments. -/
def pathRelative (base target : AbsPath) : List String :=
  (dropCommon base target).1.map (fun _ => "..") ++ (dropCommon base target).2

/-- Embedding of `isPathInside` (src/sandbox/wrapper.ts): the relative path
from `baseDir` to `candidate` is empty, or starts neither with `..` nor with a
root (relative output of two absolute paths is never absolute). -/
def isPathInside (baseDir candidate : AbsPath) : Bool :=
  pathRelative baseDir candidate = [] || (pathRelative baseDir candidate).head? ≠ some ".."

/-- Model of `path.basename(p)`. -/
def baseNameOf (p : AbsPath) : String :=
  (p.getLast?).getD ""

/-- Index of the last `.` within a basename, if any. -/
def lastDotPos (b : List Char) : Option Nat :=
  match b.reverse.findIdx? (· = '.') with
  | some j => some (b.length - 1 - j)
  | none => none

/-- Model of `path.extname(p)`: from the last dot of the basename, unless that
dot is the leading character. -/
def extnameOf (p : AbsPath) : String :=
  let b := (baseNameOf p).data
  match lastDotPos b with
  | some k => if k = 0 then "" else String.mk (b.drop k)
  | none => ""

/-- Model of `path.basename(p, path.extname(p))`: the basename with its
extension suffix removed. -/
def baseWithoutExt (p : AbsPath) : String :=
  let b := (baseNameOf p).data
  match lastDotPos b with
  | some k => if k = 0 then String.mk b else String.mk (b.take k)
  | none => String.mk b

/-- Characters kept by the sanitizer regex class `[a-zA-Z0-9._-]`. -/
def isSafeBaseChar (c : Char) : Bool :=
  ('a' ≤ c && c ≤ 'z') || ('A' ≤ c && c ≤ 'Z') || ('0' ≤ c && c ≤ '9') ||
    c = '.' || c = '_' || c = '-'

/-- Collapse runs of dashes to a single dash (the boolean tracks whether the
previous kept character was a dash). -/
def collapseDashAux : List Char → Bool → List Char
  | [], _ => []
  | c :: rest, prevDash =>
    if c = '-' then
      if prevDash then collapseDashAux rest true
      else '-' :: collapseDashAux rest true
    else c :: collapseDashAux rest false

/-- The `safeBase` computation of `resolveWorktreePrdPath`: replace unsafe
characters by dashes, collapse dash runs, truncate to 64, fall back to `prd`. -/
def safeBaseOf (raw : String) : String :=
  let replaced := raw.data.map (fun c => if isSafeBaseChar c then c else '-')
  let sliced := (collapseDashAux replaced false).take 64
  if sliced.isEmpty then "prd" else String.mk sliced

/-- The in-worktree file name used for an external PRD:
`<safe-base>-<digest8><ext>`.  The sha1 hex digest from node:crypto is
abstracted as the `digest` parameter: an opaque token over the source path
(an 8-character hex string, hence slash-free, in reality). -/
def externalPrdName (digest : AbsPath → String) (sourcePrd : AbsPath) : String :=
  let ext0 := extnameOf sourcePrd
  let ext := if ext0 = "" then ".json" else ext0
  safeBaseOf (baseWithoutExt sourcePrd) ++ "-" ++ digest sourcePrd ++ ext

/-- Result record of `resolveWorktreePrdPath`. -/
structure ResolvedPrdPath where
  sourcePrd : AbsPath
  targetPrd : AbsPath
  isExternal : Bool
deriving DecidableEq, Repr

/-- Embedding of `resolveWorktreePrdPath` (src/sandbox/wrapper.ts): a PRD
already inside the worktree stays as-is (resume path); a PRD inside the cwd
keeps its relative layout; anything else is rebased into
`.ralph-tui/external-prd/`. -/
def resolveWorktreePrdPath (digest : AbsPath → String) (cwd worktreePath : AbsPath)
    (prdPath : PathArg) : ResolvedPrdPath :=
  let sourcePrd := pathResolve cwd prdPath
  if isPathInside worktreePath sourcePrd then
    ⟨sourcePrd, sourcePrd, false⟩
  else if isPathInside cwd sourcePrd then
    let relativePath := pathRelative cwd sourcePrd
    let safeRelative := if relativePath ≠ [] then relativePath else [baseNameOf sourcePrd]
    ⟨sourcePrd, pathJoin worktreePath safeRelative, false⟩
  else
    ⟨sourcePrd, pathJoin worktreePath
      [".ralph-tui", "external-prd", externalPrdName digest sourcePrd], true⟩

/-- The file paths written by the `json` branch of `copyTrackerData`
(src/sandbox/wrapper.ts): the target, only when the source exists and differs
from the target. -/
def copyTrackerDataJsonWrites (digest : AbsPath → String) (cwd worktreePath : AbsPath)
    (prdPath : PathArg) (sourceExists : Bool) : List AbsPath :=
  let r := resolveWorktreePrdPath digest cwd worktreePath prdPath
  if sourceExists = true ∧ r.sourcePrd ≠ r.targetPrd then [r.targetPrd] else []

/-! Normalization lemmas for the path model. -/

theorem cleanPath_foldl_normStep (segs : List String) :
    ∀ acc : AbsPath, CleanPath acc → CleanPath (List.foldl normStep acc segs) := by
  induction segs with
  | nil => intro acc h; exact h
  | cons s segs ih =>
    intro acc hacc
    refine ih (normStep acc s) ?_
    unfold normStep
    split
    · exact hacc
    · split
      · intro t ht
        exact hacc t (List.dropLast_subset acc ht)
      · rename_i h1 h2
        intro t ht
        rcases List.mem_append.1 ht with h | h
        · exact hacc t h
        · have : t = s := by simpa using h
          subst this
          simp only [cleanSeg, decide_eq_true_eq]
          push_neg at h1
          exact fun hc => by
            rcases hc with hc | hc | hc
            · exact h1.1 hc
            · exact h1.2 hc
            · exact h2 hc

theorem cleanPath_normalizeSegs (segs : List String) : CleanPath (normalizeSegs segs) :=
  cleanPath_foldl_normStep segs [] (by intro s h; cases h)

theorem foldl_normStep_clean (b : List String) :
    ∀ acc : AbsPath, (∀ s ∈ b, cleanSeg s = true) → List.foldl normStep acc b = acc ++ b := by
  induction b with
  | nil => intro acc _; simp
  | cons s b ih =>
    intro acc hb
    have hs : cleanSeg s = true := hb s (List.mem_cons_self s b)
    have hstep : normStep acc s = acc ++ [s] := by
      unfold normStep
      simp only [cleanSeg, decide_eq_true_eq] at hs
      push_neg at hs
      rw [if_neg, if_neg]
      · exact fun hc => hs.2.2 hc
      · exact fun hc => hc.elim hs.1 hs.2.1
    rw [List.foldl_cons, hstep, ih (acc ++ [s]) (fun t ht => hb t (List.mem_cons_of_mem s ht))]
    simp

theorem pathJoin_clean (base : AbsPath) (rest : List String)
    (hb : CleanPath base) (hr : ∀ s ∈ rest, cleanSeg s = true) :
    pathJoin base rest = base ++ rest := by
  unfold pathJoin normalizeSegs
  rw [List.foldl_append, foldl_normStep_clean rest _ hr,
    foldl_normStep_clean base [] hb, List.nil_append]

theorem dropCommon_append_self (l r : List String) : dropCommon l (l ++ r) = ([], r) := by
  induction l with
  | nil =>
    cases r with
    | nil => rfl
    | cons a r => rfl
  | cons a l ih =>
    rw [List.cons_append]
    simp [dropCommon, ih]

theorem isPathInside_append (base : AbsPath) (r : List String)
    (h : r.head? ≠ some "..") : isPathInside base (base ++ r) = true := by
  unfold isPathInside pathRelative
  rw [dropCommon_append_self]
  simp only [List.map_nil, List.nil_append]
  cases r with
  | nil => simp
  | cons a r =>
    simp only [List.head?_cons] at h ⊢
    simp [h]

theorem mem_externalPrdName_dash (digest : AbsPath → String) (p : AbsPath) :
    '-' ∈ (externalPrdName digest p).data := by
  unfold externalPrdName
  simp only [String.data_append]
  refine List.mem_append.2 (Or.inl (List.mem_append.2 (Or.inl (List.mem_append.2 (Or.inr ?_)))))
  decide

theorem cleanSeg_externalPrdName (digest : AbsPath → String) (p : AbsPath) :
    cleanSeg (externalPrdName digest p) = true := by
  have hd := mem_externalPrdName_dash digest p
  simp only [cleanSeg, decide_eq_true_eq]
  intro hc
  rcases hc with hc | hc | hc <;> rw [hc] at hd <;> simp_all [String.data]

/-! ### Theorems for claim C4 -/

/-- C4 counterexample: a PRD that lies outside the original cwd but already
inside the session worktree is left where it is — it is not rebased into
`.ralph-tui/external-prd/` and nothing is copied at all. -/
theorem resolveWorktreePrdPath_inside_worktree_not_rebased :
    let cwd0 : AbsPath := ["home", "user", "proj"]
    let wt0 : AbsPath := ["home", "user", ".ralph-worktrees", "proj", "s"]
    let prd0 : PathArg := ⟨true, ["home", "user", ".ralph-worktrees", "proj", "s", "prd.json"]⟩
    let dg0 : AbsPath → String := fun _ => "deadbeef"
    let r := resolveWorktreePrdPath dg0 cwd0 wt0 prd0
    isPathInside cwd0 r.sourcePrd = false ∧
    r.isExternal = false ∧
    r.targetPrd = r.sourcePrd ∧
    copyTrackerDataJsonWrites dg0 cwd0 wt0 prd0 true = [] := by
  decide

/-- C4 (amended): a PRD whose resolved path lies outside the original cwd and
is not already inside the worktree is rebased to the in-worktree path
`<worktree>/.ralph-tui/external-prd/<safe-base>-<digest8><ext>`, and in that
case the copy writes only inside the worktree and never through the source
PRD path (a PRD already inside the worktree is kept in place and not copied,
per the counterexample). -/
theorem resolveWorktreePrdPath_external_spec (digest : AbsPath → String)
    (cwd wt : AbsPath) (prd : PathArg) (sourceExists : Bool)
    (hwt : CleanPath wt)
    (h1 : isPathInside wt (pathResolve cwd prd) = false)
    (h2 : isPathInside cwd (pathResolve cwd prd) = false) :
    let r := resolveWorktreePrdPath digest cwd wt prd
    r.targetPrd = wt ++ [".ralph-tui", "external-prd", externalPrdName digest r.sourcePrd] ∧
    r.isExternal = true ∧
    isPathInside wt r.targetPrd = true ∧
    ∀ w ∈ copyTrackerDataJsonWrites digest cwd wt prd sourceExists,
      isPathInside wt w = true ∧ w ≠ r.sourcePrd := by
  intro r
  have hr : r = ⟨pathResolve cwd prd, pathJoin wt
      [".ralph-tui", "external-prd", externalPrdName digest (pathResolve cwd prd)], true⟩ := by
    show resolveWorktreePrdPath digest cwd wt prd = _
    unfold resolveWorktreePrdPath
    rw [if_neg (by simp [h1]), if_neg (by simp [h2])]
  have hclean : ∀ s ∈ [".ralph-tui", "external-prd",
      externalPrdName digest (pathResolve cwd prd)], cleanSeg s = true := by
    intro s hs
    simp only [List.mem_cons, List.not_mem_nil, or_false] at hs
    rcases hs with hs | hs | hs
    · rw [hs]; decide
    · rw [hs]; decide
    · rw [hs]; exact cleanSeg_externalPrdName digest (pathResolve cwd prd)
  have hjoin : pathJoin wt [".ralph-tui", "external-prd",
      externalPrdName digest (pathResolve cwd prd)] =
      wt ++ [".ralph-tui", "external-prd", externalPrdName digest (pathResolve cwd prd)] :=
    pathJoin_clean wt _ hwt hclean
  have hsrc : r.sourcePrd = pathResolve cwd prd := by rw [hr]
  have htgt : r.targetPrd = wt ++ [".ralph-tui", "external-prd",
      externalPrdName digest (pathResolve cwd prd)] := by rw [hr]; exact hjoin
  have hinside : isPathInside wt r.targetPrd = true := by
    rw [htgt]
    exact isPathInside_append wt _ (by simp)
  have hneq : r.targetPrd ≠ r.sourcePrd := by
    intro hc
    rw [hsrc] at hc
    rw [hc] at hinside
    rw [hinside] at h1
    cases h1
  refine ⟨by rw [htgt, hsrc], by rw [hr], hinside, ?_⟩
  intro w hw
  unfold copyTrackerDataJsonWrites at hw
  by_cases hcond : sourceExists = true ∧
      (resolveWorktreePrdPath digest cwd wt prd).sourcePrd ≠
        (resolveWorktreePrdPath digest cwd wt prd).targetPrd
  · rw [if_pos hcond] at hw
    have hw' : w = r.targetPrd := by simpa using hw
    rw [hw']
    exact ⟨hinside, fun hc => hneq hc⟩
  · rw [if_neg hcond] at hw
    cases hw

theorem resolveWorktreePrdPath_external_spec_witness :
    let cwd0 : AbsPath := ["home", "user", "proj"]
    let wt0 : AbsPath := ["home", "user", ".ralph-worktrees", "proj", "s"]
    let prd0 : PathArg := ⟨true, ["tmp", "specs", "My PRD.json"]⟩
    let dg0 : AbsPath → String := fun _ => "deadbeef"
    let r := resolveWorktreePrdPath dg0 cwd0 wt0 prd0
    r.targetPrd = wt0 ++ [".ralph-tui", "external-prd", externalPrdName dg0 r.sourcePrd] ∧
    r.isExternal = true ∧
    isPathInside wt0 r.targetPrd = true ∧
    ∀ w ∈ copyTrackerDataJsonWrites dg0 cwd0 wt0 prd0 true,
      isPathInside wt0 w = true ∧ w ≠ r.sourcePrd :=
  resolveWorktreePrdPath_external_spec (fun _ => "deadbeef")
    ["home", "user", "proj"] ["home", "user", ".ralph-worktrees", "proj", "s"]
    ⟨true, ["tmp", "specs", "My PRD.json"]⟩ true
    (by decide) (by decide) (by decide)

/-! ### Merge-back of the session worktree (mergeSessionWorktree,
src/sandbox/wrapper.ts and src/session-worktree.ts; identical logic)

Each external git invocation is modelled by an environment record carrying its
outcome; the routine produces a result, the new repository state, and the
ordered trace of git commands it issued. -/

/-- The git commands issued by merge-back and worktree removal. -/
inductive GitCmd
  | revParseHead
  | mergeFF
  | mergeNoEdit
  | mergeAbort
  | worktreeRemove
  | worktreePrune
  | branchDelete
deriving DecidableEq, Repr

/-- Outcomes of the external git calls merge-back can make. -/
structure GitEnv where
  /-- Result of `git rev-parse --abbrev-ref HEAD`; `none` models a throw. -/
  revParseHead : Option String
  /-- Whether `git merge --ff-only <branch>` succeeds. -/
  ffOk : Bool
  /-- Whether `git merge --no-edit <branch>` succeeds. -/
  noEditOk : Bool
  /-- Whether `git worktree remove --force` succeeds (else rmSync + prune). -/
  worktreeRemoveOk : Bool
  /-- Whether `git branch -D <branch>` succeeds. -/
  branchDeleteOk : Bool
deriving DecidableEq, Repr

/-- The repository facts the claims are about. -/
structure RepoState where
  worktreeExists : Bool
  branchExists : Bool
deriving DecidableEq, Repr

/-- Merge-back outcome (the `message` strings are not modelled). -/
structure MergeResult where
  success : Bool
deriving DecidableEq, Repr

/-- Embedding of `removeSessionWorktree`: force-remove the worktree (falling
back to `rmSync` + `worktree prune`, which always removes the directory), then
best-effort delete the branch. -/
def removeSessionWorktree (env : GitEnv) (st : RepoState) : RepoState × List GitCmd :=
  let removeTrace := if env.worktreeRemoveOk then [GitCmd.worktreeRemove]
    else [GitCmd.worktreeRemove, GitCmd.worktreePrune]
  let st1 : RepoState := ⟨false, st.branchExists⟩
  let st2 : RepoState := ⟨st1.worktreeExists, if env.branchDeleteOk then false else st1.branchExists⟩
  (st2, removeTrace ++ [GitCmd.branchDelete])

/-- Embedding of `mergeSessionWorktree`: determine the original branch, guard
against it being the session branch, try `merge --ff-only`, then
`merge --no-edit`, and on failure `merge --abort` and preserve everything; on
success clean up via `removeSessionWorktree`. -/
def mergeSessionWorktree (env : GitEnv) (branchName : String) (st : RepoState) :
    MergeResult × RepoState × List GitCmd :=
  match env.revParseHead with
  | none => (⟨false⟩, st, [GitCmd.revParseHead])
  | some originalBranch =>
    if originalBranch = branchName then
      (⟨false⟩, st, [GitCmd.revParseHead])
    else if env.ffOk then
      let c := removeSessionWorktree env st
      (⟨true⟩, c.1, [GitCmd.revParseHead, GitCmd.mergeFF] ++ c.2)
    else if env.noEditOk then
      let c := removeSessionWorktree env st
      (⟨true⟩, c.1, [GitCmd.revParseHead, GitCmd.mergeFF, GitCmd.mergeNoEdit] ++ c.2)
    else
      (⟨false⟩, st, [GitCmd.revParseHead, GitCmd.mergeFF, GitCmd.mergeNoEdit, GitCmd.mergeAbort])

/-- C5: merge-back first attempts a fast-forward merge, attempts a `--no-edit`
merge only if that fails, aborts and preserves worktree and branch on
conflict, and succeeds iff one of the merges succeeds, in which case (and only
in which case) the worktree is removed and the branch deleted. -/
theorem mergeSessionWorktree_spec (env : GitEnv) (branchName : String) (st : RepoState)
    (hrev : ∃ ob, env.revParseHead = some ob ∧ ob ≠ branchName)
    (hwt : st.worktreeExists = true) (hbr : st.branchExists = true)
    (hdel : env.branchDeleteOk = true) :
    let r := mergeSessionWorktree env branchName st
    (r.2.2.take 2 = [GitCmd.revParseHead, GitCmd.mergeFF]) ∧
    (env.ffOk = true → GitCmd.mergeNoEdit ∉ r.2.2 ∧ r.1.success = true) ∧
    (env.ffOk = false →
      r.2.2.take 3 = [GitCmd.revParseHead, GitCmd.mergeFF, GitCmd.mergeNoEdit]) ∧
    (env.ffOk = false → env.noEditOk = false →
      r.1.success = false ∧ GitCmd.mergeAbort ∈ r.2.2 ∧
      r.2.1.worktreeExists = true ∧ r.2.1.branchExists = true) ∧
    (r.1.success = true ↔ (env.ffOk = true ∨ env.noEditOk = true)) ∧
    (r.1.success = true ↔ r.2.1.worktreeExists = false ∧ r.2.1.branchExists = false) := by
  obtain ⟨ob, hob, hne⟩ := hrev
  intro r
  have hr : r = mergeSessionWorktree env branchName st := rfl
  simp only [mergeSessionWorktree, hob] at hr
  rw [if_neg hne] at hr
  by_cases hff : env.ffOk = true
  · rw [if_pos hff] at hr
    refine ⟨by rw [hr]; cases env.worktreeRemoveOk <;> rfl, ?_, ?_, ?_, ?_, ?_⟩
    · intro _
      constructor
      · rw [hr]
        cases henv : env.worktreeRemoveOk <;>
          simp [removeSessionWorktree, henv]
      · rw [hr]
    · intro hc; rw [hc] at hff; cases hff
    · intro hc; rw [hc] at hff; cases hff
    · rw [hr]; simp [hff]
    · rw [hr]; simp [removeSessionWorktree, hdel]
  · have hff' : env.ffOk = false := by cases h : env.ffOk; rfl; exact absurd h hff
    rw [if_neg (by rw [hff']; exact Bool.false_ne_true)] at hr
    by_cases hne2 : env.noEditOk = true
    · rw [if_pos hne2] at hr
      refine ⟨by rw [hr]; cases env.worktreeRemoveOk <;> rfl, ?_, ?_, ?_, ?_, ?_⟩
      · intro hc; rw [hc] at hff'; cases hff'
      · intro _
        rw [hr]
        cases henv : env.worktreeRemoveOk <;> rfl
      · intro _ hc; rw [hc] at hne2; cases hne2
      · rw [hr]; simp [hne2]
      · rw [hr]; simp [removeSessionWorktree, hdel]
    · have hne2' : env.noEditOk = false := by
        cases h : env.noEditOk; rfl; exact absurd h hne2
      rw [if_neg (by rw [hne2']; exact Bool.false_ne_true)] at hr
      refine ⟨by rw [hr]; rfl, ?_, ?_, ?_, ?_, ?_⟩
      · intro hc; rw [hc] at hff'; cases hff'
      · intro _; rw [hr]; rfl
      · intro _ _
        rw [hr]
        exact ⟨rfl, by simp, hwt, hbr⟩
      · rw [hr]; simp [hff', hne2']
      · rw [hr]
        simp only [hwt, hbr]
        constructor
        · intro hc; cases hc
        · intro ⟨hc, _⟩; cases hc

theorem mergeSessionWorktree_spec_witness :
    let env : GitEnv := ⟨some "main", false, true, true, true⟩
    let st : RepoState := ⟨true, true⟩
    let r := mergeSessionWorktree env "ralph-session/s" st
    (r.2.2.take 2 = [GitCmd.revParseHead, GitCmd.mergeFF]) ∧
    (env.ffOk = true → GitCmd.mergeNoEdit ∉ r.2.2 ∧ r.1.success = true) ∧
    (env.ffOk = false →
      r.2.2.take 3 = [GitCmd.revParseHead, GitCmd.mergeFF, GitCmd.mergeNoEdit]) ∧
    (env.ffOk = false → env.noEditOk = false →
      r.1.success = false ∧ GitCmd.mergeAbort ∈ r.2.2 ∧
      r.2.1.worktreeExists = true ∧ r.2.1.branchExists = true) ∧
    (r.1.success = true ↔ (env.ffOk = true ∨ env.noEditOk = true)) ∧
    (r.1.success = true ↔ r.2.1.worktreeExists = false ∧ r.2.1.branchExists = false) :=
  mergeSessionWorktree_spec ⟨some "main", false, true, true, true⟩ "ralph-session/s" ⟨true, true⟩
    ⟨"main", rfl, by decide⟩ rfl rfl rfl

/-! ### Session resume resolution (src/commands/resume.ts) -/

/-- The registry fields the resume flow reads. -/
structure SessionRegistryEntry where
  sessionId : String
  cwd : String
deriving DecidableEq, Repr

/-- Results of the session-module lookups `resolveSession` performs:
`getSessionById`, `findSessionsByPrefix`, `getSessionByCwd`,
`hasPersistedSession`. -/
structure ResumeEnv where
  byId : Option SessionRegistryEntry
  byPrefix : List SessionRegistryEntry
  byCwd : Option SessionRegistryEntry
  filePresent : Bool
deriving DecidableEq, Repr

/-- A resolved resumable session. -/
structure ResolvedSession where
  cwd : String
  registryEntry : Option SessionRegistryEntry
deriving DecidableEq, Repr

/-- Modelled from the spec: `resolveSession` of src/commands/resume.ts is not
in the source tree.  Reconstructed from the spec sentence "Match by explicit
id (exact > unique prefix > ambiguous-prefix error); fallback to the session
whose cwd equals the current cwd.  Verify the registry entry exists AND the
session file exists; otherwise guide the user to `--cleanup` or `run`",
together with the repository test suite for `resolveSession`, which pins the
actual behavior and takes precedence where the two disagree: in the cwd
fallback a present session file resolves even without a registry entry
(test "returns null when session file exists but no registry entry" asserts a
non-null result with `registryEntry` undefined). -/
def resolveSession (env : ResumeEnv) (sessionId : Option String) (argCwd : String) :
    Option ResolvedSession :=
  match sessionId with
  | some _ =>
    match env.byId with
    | some e => if env.filePresent then some ⟨e.cwd, some e⟩ else none
    | none =>
      match env.byPrefix with
      | [e] => if env.filePresent then some ⟨e.cwd, some e⟩ else none
      | _ => none
  | none =>
    if env.filePresent then some ⟨argCwd, env.byCwd⟩ else none

/-- C6 counterexample: with no session ID, a present session file and a
missing registry entry, resolution still succeeds (with no registry entry
attached), contradicting "succeeds only when both the registry entry and the
session file exist". -/
theorem resolveSession_missing_registry_resolves :
    resolveSession ⟨none, [], none, true⟩ none "/home/user/project" =
      some ⟨"/home/user/project", none⟩ := rfl

/-- C6 (amended): with an explicit session ID, resolution succeeds only when a
unique registry matchexists and the session file exists; without a session ID,
resolution succeeds iff the cwd session file exists — a missing registry entry
does not block it (the session resolves with no registry entry attached); a
missing session file always yields no session. -/
theorem resolveSession_amended (env : ResumeEnv) (sid : Option String) (argCwd : String) :
    (env.filePresent = false → resolveSession env sid argCwd = none) ∧
    (∀ s e, sid = some s → env.byId = some e → env.filePresent = true →
      resolveSession env sid argCwd = some ⟨e.cwd, some e⟩) ∧
    (∀ s e, sid = some s → env.byId = none → env.byPrefix = [e] → env.filePresent = true →
      resolveSession env sid argCwd = some ⟨e.cwd, some e⟩) ∧
    (∀ s, sid = some s → env.byId = none → (∀ e, env.byPrefix ≠ [e]) →
      resolveSession env sid argCwd = none) ∧
    (sid = none → env.filePresent = true →
      resolveSession env sid argCwd = some ⟨argCwd, env.byCwd⟩) := by
  refine ⟨?_, ?_, ?_, ?_, ?_⟩
  · intro hf
    cases sid with
    | none => simp [resolveSession, hf]
    | some s =>
      cases hid : env.byId with
      | some e => simp [resolveSession, hf, hid]
      | none =>
        cases hp : env.byPrefix with
        | nil => simp [resolveSession, hid, hp]
        | cons a t =>
          cases t with
          | nil => simp [resolveSession, hf, hid, hp]
          | cons b t2 => simp [resolveSession, hid, hp]
  · intro s e hs he hf
    rw [hs]
    simp [resolveSession, he, hf]
  · intro s e hs hid hp hf
    rw [hs]
    simp [resolveSession, hid, hp, hf]
  · intro s hs hid hp
    rw [hs]
    cases hpv : env.byPrefix with
    | nil => simp [resolveSession, hid, hpv]
    | cons a t =>
      cases t with
      | nil => exact absurd hpv (hp a)
      | cons b t2 => simp [resolveSession, hid, hpv]
  · intro hs hf
    rw [hs]
    simp [resolveSession, hf]

theorem resolveSession_amended_witness :
    resolveSession ⟨some ⟨"a1b2", "/home/user/project"⟩, [], none, true⟩
        (some "a1b2") "/cur" =
      some ⟨"/home/user/project", some ⟨"a1b2", "/home/user/project"⟩⟩ :=
  (resolveSession_amended ⟨some ⟨"a1b2", "/home/user/project"⟩, [], none, true⟩
    (some "a1b2") "/cur").2.1 "a1b2" ⟨"a1b2", "/home/user/project"⟩ rfl rfl rfl

/-! ### Preparing a session worktree (prepareSessionWorktree,
src/sandbox/wrapper.ts) -/

/-- Model of `getWorktreeBaseDir`: `{parent}/.ralph-worktrees/{basename}`. -/
def getWorktreeBaseDir (cwd : AbsPath) : AbsPath :=
  pathJoin cwd.dropLast [".ralph-worktrees", baseNameOf cwd]

/-- One parsed entry of `git worktree list --porcelain`. -/
structure WorktreeEntry where
  path : AbsPath
  branch : Option String
deriving DecidableEq, Repr

/-- Outcomes of the external calls `prepareSessionWorktree` makes. -/
structure PrepEnv where
  /-- Parsed `git worktree list --porcelain`; `none` models a git failure
  (treated as an empty list by the source). -/
  worktreeList : Option (List WorktreeEntry)
  /-- Whether `refs/heads/<branch>` exists (`branchExists`). -/
  branchExists : Bool
  /-- Whether a stale directory exists at the target worktree path. -/
  stalePathExists : Bool
deriving DecidableEq, Repr

/-- Session worktree creation/reuse mode. -/
inductive SessionWorktreeMode
  | created
  | reused
  | attached
deriving DecidableEq, Repr

/-- Result of preparing a session worktree. -/
structure PreparedSessionWorktree where
  worktreePath : AbsPath
  branchName : String
  mode : SessionWorktreeMode
deriving DecidableEq, Repr

/-- The filesystem/git operations `prepareSessionWorktree` can perform. -/
inductive PrepOp
  | listWorktrees
  | removeStalePath
  | addWorktreeToBranch
  | copyConfigOp
  | createFreshWorktree
deriving DecidableEq, Repr

/-- The session branch for a session name. -/
def sessionBranchName (sessionName : String) : String :=
  "ralph-session/" ++ sessionName

/-- `entries.find((entry) => entry.branch === branchName)`. -/
def findAttachedEntry (entries : List WorktreeEntry) (branchName : String) :
    Option WorktreeEntry :=
  entries.find? (fun e => e.branch == some branchName)

/-- Embedding of `prepareSessionWorktree` (src/sandbox/wrapper.ts): on resume,
reuse the worktree already attached to the session branch; else attach a new
worktree to the existing branch after clearing any stale path; else (and
whenever not resuming) create a fresh worktree. -/
def prepareSessionWorktree (env : PrepEnv) (cwd : AbsPath) (sessionName : String)
    (resume : Bool) : PreparedSessionWorktree × List PrepOp :=
  let branchName := sessionBranchName sessionName
  let worktreePath := pathJoin (getWorktreeBaseDir cwd) [sessionName]
  if resume then
    let entries := env.worktreeList.getD []
    match findAttachedEntry entries branchName with
    | some e => (⟨e.path, branchName, .reused⟩, [.listWorktrees])
    | none =>
      if env.branchExists then
        (⟨worktreePath, branchName, .attached⟩,
          [PrepOp.listWorktrees] ++
            (if env.stalePathExists then [PrepOp.removeStalePath] else []) ++
            [PrepOp.addWorktreeToBranch, PrepOp.copyConfigOp])
      else
        (⟨worktreePath, branchName, .created⟩, [.listWorktrees, .createFreshWorktree])
  else
    (⟨worktreePath, branchName, .created⟩, [.createFreshWorktree])

/-- C8: on resume with the session branch checked out in some worktree, that
worktree is reused (mode `reused`); otherwise, if the branch exists, a new
worktree is attached after clearing any stale path (mode `attached`); in every
other case a fresh worktree is created (mode `created`); the mode is always
one of the three. -/
theorem prepareSessionWorktree_modes (env : PrepEnv) (cwd : AbsPath)
    (sessionName : String) (resume : Bool) :
    ((prepareSessionWorktree env cwd sessionName resume).1.mode = .created ∨
     (prepareSessionWorktree env cwd sessionName resume).1.mode = .reused ∨
     (prepareSessionWorktree env cwd sessionName resume).1.mode = .attached) ∧
    ((prepareSessionWorktree env cwd sessionName resume).1.mode = .reused ↔
      resume = true ∧
      (findAttachedEntry (env.worktreeList.getD [])
        (sessionBranchName sessionName)).isSome = true) ∧
    (∀ e, resume = true →
      findAttachedEntry (env.worktreeList.getD []) (sessionBranchName sessionName) = some e →
      (prepareSessionWorktree env cwd sessionName resume).1 =
        ⟨e.path, sessionBranchName sessionName, .reused⟩) ∧
    ((prepareSessionWorktree env cwd sessionName resume).1.mode = .attached ↔
      resume = true ∧
      findAttachedEntry (env.worktreeList.getD []) (sessionBranchName sessionName) = none ∧
      env.branchExists = true) ∧
    ((prepareSessionWorktree env cwd sessionName resume).1.mode = .created ↔
      (resume = false ∨
        (findAttachedEntry (env.worktreeList.getD []) (sessionBranchName sessionName) = none ∧
         env.branchExists = false))) ∧
    (resume = true →
      findAttachedEntry (env.worktreeList.getD []) (sessionBranchName sessionName) = none →
      env.branchExists = true → env.stalePathExists = true →
      (prepareSessionWorktree env cwd sessionName resume).2 =
        [PrepOp.listWorktrees, PrepOp.removeStalePath,
         PrepOp.addWorktreeToBranch, PrepOp.copyConfigOp]) := by
  refine ⟨?_, ?_, ?_, ?_, ?_, ?_⟩ <;>
    cases hres : resume <;>
      cases hfind : findAttachedEntry (env.worktreeList.getD [])
        (sessionBranchName sessionName) <;>
        cases hbr : env.branchExists <;>
          cases hstale : env.stalePathExists <;>
            simp [prepareSessionWorktree, hfind, hbr, hstale]

theorem prepareSessionWorktree_modes_witness :
    (prepareSessionWorktree ⟨some [⟨["wt", "p"], some "ralph-session/s"⟩], true, true⟩
        ["home", "u", "proj"] "s" true).1 =
      ⟨["wt", "p"], sessionBranchName "s", .reused⟩ :=
  (prepareSessionWorktree_modes ⟨some [⟨["wt", "p"], some "ralph-session/s"⟩], true, true⟩
    ["home", "u", "proj"] "s" true).2.2.1 ⟨["wt", "p"], some "ralph-session/s"⟩ rfl (by decide)

/-! ### Iteration-log preservation (preserveIterationLogs,
src/sandbox/wrapper.ts)

Directories are modelled as partial maps from file name to file content; the
worktree iterations directory is its (possibly absent) file listing plus a
content function. -/

/-- Model of JavaScript `s.endsWith(suffix)`. -/
def jsEndsWith (s suffix : String) : Bool :=
  suffix.data.isSuffixOf s.data

/-- One iteration of the copy loop of `preserveIterationLogs`: copy `f` into
the destination directory if it is a `.log` file and absent there. -/
def copyLogStep (wtContent : String → String) (acc : String → Option String)
    (f : String) : String → Option String :=
  if jsEndsWith f ".log" = true ∧ acc f = none then
    fun x => if x = f then some (wtContent f) else acc x
  else acc

/-- Embedding of `preserveIterationLogs` (src/sandbox/wrapper.ts): if the
worktree logs directory exists, fold its listing over the copy step;
the result is the new state of the main `.ralph-tui/iterations/` directory. -/
def preserveIterationLogs (wtLogsDirExists : Bool) (logFiles : List String)
    (wtContent : String → String) (mainDir : String → Option String) :
    String → Option String :=
  if wtLogsDirExists = false then mainDir
  else logFiles.foldl (copyLogStep wtContent) mainDir

theorem copyLogStep_foldl_preserves (wtContent : String → String) :
    ∀ (files : List String) (acc : String → Option String) (f : String) (c : String),
      acc f = some c → (files.foldl (copyLogStep wtContent) acc) f = some c := by
  intro files
  induction files with
  | nil => intro acc f c h; exact h
  | cons x rest ih =>
    intro acc f c h
    refine ih (copyLogStep wtContent acc x) f c ?_
    unfold copyLogStep
    split
    · rename_i hcond
      by_cases hfx : f = x
      · rw [hfx] at h; rw [hcond.2] at h; cases h
      · simp [hfx, h]
    · exact h

theorem copyLogStep_foldl_frame (wtContent : String → String) :
    ∀ (files : List String) (acc : String → Option String) (f : String),
      (∀ x ∈ files, ¬(x = f ∧ jsEndsWith x ".log" = true)) →
      (files.foldl (copyLogStep wtContent) acc) f = acc f := by
  intro files
  induction files with
  | nil => intro acc f _; rfl
  | cons x rest ih =>
    intro acc f hf
    rw [List.foldl_cons]
    rw [ih _ f (fun y hy => hf y (List.mem_cons_of_mem x hy))]
    unfold copyLogStep
    split
    · rename_i hcond
      have hxf : ¬ x = f ∨ ¬ jsEndsWith x ".log" = true := by
        have := hf x (List.mem_cons_self x rest)
        tauto
      rcases hxf with hxf | hxf
      · exact if_neg (fun h => hxf h.symm)
      · exact absurd hcond.1 hxf
    · rfl

theorem copyLogStep_foldl_copies (wtContent : String → String) :
    ∀ (files : List String) (acc : String → Option String) (f : String),
      f ∈ files → jsEndsWith f ".log" = true → acc f = none →
      (files.foldl (copyLogStep wtContent) acc) f = some (wtContent f) := by
  intro files
  induction files with
  | nil => intro acc f hmem; cases hmem
  | cons x rest ih =>
    intro acc f hmem hlog hnone
    rw [List.foldl_cons]
    by_cases hfx : f = x
    · subst hfx
      have hstep : copyLogStep wtContent acc f f = some (wtContent f) := by
        unfold copyLogStep
        rw [if_pos ⟨hlog, hnone⟩]
        simp
      exact copyLogStep_foldl_preserves wtContent rest _ f (wtContent f) hstep
    · have hmem2 : f ∈ rest := by
        rcases List.mem_cons.1 hmem with h | h
        · exact absurd h hfx
        · exact h
      refine ih (copyLogStep wtContent acc x) f hmem2 hlog ?_
      unfold copyLogStep
      split
      · simp [hfx, hnone]
      · exact hnone

/-- C9: every `.log` file of the worktree iterations directory that is absent
from the main iterations directory is copied there with its content; files
already present in the main directory keep their content (never overwritten);
any name not appearing in the listing as a `.log` file is left exactly as it
was (nothing else is copied). -/
theorem preserveIterationLogs_spec (wtLogsDirExists : Bool) (logFiles : List String)
    (wtContent : String → String) (mainDir : String → Option String) :
    (∀ f, wtLogsDirExists = true → f ∈ logFiles → jsEndsWith f ".log" = true →
      mainDir f = none →
      preserveIterationLogs wtLogsDirExists logFiles wtContent mainDir f =
        some (wtContent f)) ∧
    (∀ f c, mainDir f = some c →
      preserveIterationLogs wtLogsDirExists logFiles wtContent mainDir f = some c) ∧
    (∀ f, (∀ x ∈ logFiles, ¬(x = f ∧ jsEndsWith x ".log" = true)) →
      preserveIterationLogs wtLogsDirExists logFiles wtContent mainDir f = mainDir f) := by
  cases hex : wtLogsDirExists with
  | false =>
    have hres : preserveIterationLogs false logFiles wtContent mainDir = mainDir := by
      unfold preserveIterationLogs
      rw [if_pos rfl]
    refine ⟨?_, ?_, ?_⟩
    · intro f hc; cases hc
    · intro f c h; rw [hres]; exact h
    · intro f _; rw [hres]
  | true =>
    have hres : preserveIterationLogs true logFiles wtContent mainDir =
        logFiles.foldl (copyLogStep wtContent) mainDir := by
      unfold preserveIterationLogs
      rw [if_neg (by simp)]
    refine ⟨?_, ?_, ?_⟩
    · intro f _ hmem hlog hnone
      rw [hres]
      exact copyLogStep_foldl_copies wtContent logFiles mainDir f hmem hlog hnone
    · intro f c h
      rw [hres]
      exact copyLogStep_foldl_preserves wtContent logFiles mainDir f c h
    · intro f hf
      rw [hres]
      exact copyLogStep_foldl_frame wtContent logFiles mainDir f hf

theorem preserveIterationLogs_spec_witness :
    preserveIterationLogs true ["a.log", "keep.log", "b.txt"] (fun _ => "W")
      (fun x => if x = "keep.log" then some "old" else none) "a.log" = some "W" ∧
    preserveIterationLogs true ["a.log", "keep.log", "b.txt"] (fun _ => "W")
      (fun x => if x = "keep.log" then some "old" else none) "keep.log" = some "old" ∧
    preserveIterationLogs true ["a.log", "keep.log", "b.txt"] (fun _ => "W")
      (fun x => if x = "keep.log" then some "old" else none) "b.txt" = none := by
  have h := preserveIterationLogs_spec true ["a.log", "keep.log", "b.txt"] (fun _ => "W")
    (fun x => if x = "keep.log" then some "old" else none)
  refine ⟨?_, ?_, ?_⟩
  · exact h.1 "a.log" rfl (by decide) (by decide) (by decide)
  · exact h.2.1 "keep.log" "old" (by decide)
  · rw [h.2.2 "b.txt" (by decide)]
    decide

/-! ### Dotted-child task ordering (src/plugins/trackers/task-ordering.ts)

`localeCompare(undefined, { numeric: true, sensitivity: 'base' })` is modelled
for ASCII inputs: strings are tokenized into maximal digit runs (compared by
numeric value) and single non-digit characters (compared by lowercased code
point, digits ordering before other characters); token lists compare
lexicographically.  Ties between different spellings of the same number
(e.g. `01` vs `1`) compare equal here, which only affects tie-breaking of a
stable sort.  JavaScript `Number` overflow on 309+-digit suffixes is not
modelled: issue numbers are exact naturals. -/

/-- Three-way comparison on naturals. -/
def cmpNat (x y : Nat) : Ordering :=
  if x < y then .lt else if x = y then .eq else .gt

/-- A collation token: a digit run (by value) or a lowercased character. -/
inductive CTok
  | num (v : Nat)
  | chr (c : Nat)
deriving DecidableEq, Repr

/-- Lowercased code point of an ASCII character (sensitivity "base"). -/
def lowerCode (c : Char) : Nat :=
  if 'A' ≤ c ∧ c ≤ 'Z' then c.toNat + 32 else c.toNat

/-- Tokenizer state machine; the accumulator carries the value of a pending
digit run. -/
def tokenizeAux : List Char → Option Nat → List CTok
  | [], none => []
  | [], some v => [CTok.num v]
  | c :: cs, none =>
    if c.isDigit then tokenizeAux cs (some (c.toNat - 48))
    else CTok.chr (lowerCode c) :: tokenizeAux cs none
  | c :: cs, some v =>
    if c.isDigit then tokenizeAux cs (some (v * 10 + (c.toNat - 48)))
    else CTok.num v :: CTok.chr (lowerCode c) :: tokenizeAux cs none

/-- Tokenize a string for numeric/base collation. -/
def tokenize (s : String) : List CTok :=
  tokenizeAux s.data none

/-- Compare two collation tokens. -/
def cmpTok : CTok → CTok → Ordering
  | .num x, .num y => cmpNat x y
  | .num _, .chr _ => .lt
  | .chr _, .num _ => .gt
  | .chr x, .chr y => cmpNat x y

/-- Lexicographic comparison of token lists. -/
def cmpToks : List CTok → List CTok → Ordering
  | [], [] => .eq
  | [], _ :: _ => .lt
  | _ :: _, [] => .gt
  | a :: as, b :: bs =>
    match cmpTok a b with
    | .eq => cmpToks as bs
    | o => o

/-- The sign an `Ordering` yields as a JavaScript comparator value. -/
def ordToInt : Ordering → Int
  | .lt => -1
  | .eq => 0
  | .gt => 1

/-- ASCII model of `a.localeCompare(b, undefined, { numeric: true,
sensitivity: 'base' })`. -/
def localeCompareNumericBase (a b : String) : Int :=
  ordToInt (cmpToks (tokenize a) (tokenize b))

/-- A parsed dotted child id.  The source field `prefix` is named `pfx` here
because `prefix` is a reserved word in Lean. -/
structure ParsedChildId where
  rawId : String
  pfx : String
  issueNumber : Nat
deriving DecidableEq, Repr

/-- JavaScript regex line terminators (not matched by `.`). -/
def isLineTerminator (c : Char) : Bool :=
  c = '\n' ∨ c = '\r' ∨ c.toNat = 0x2028 ∨ c.toNat = 0x2029

/-- Split a character list at its LAST dot: `some (before, after)`. -/
def splitLastDot : List Char → Option (List Char × List Char)
  | [] => none
  | c :: cs =>
    match splitLastDot cs with
    | some (p, suf) => some (c :: p, suf)
    | none => if c = '.' then some ([], cs) else none

/-- Numeric value of a digit run. -/
def natOfDigits (ds : List Char) : Nat :=
  ds.foldl (fun n c => n * 10 + (c.toNat - 48)) 0

/-- Embedding of `parseChildTaskId`: the greedy regex `(.*)\.(\d+)` anchored on
both sides matches exactly when the segment after the LAST dot is a nonempty
digit run and the part before it contains no line terminator (`.` does not
match those); `Number` of a digit run is modelled as an exact natural (the
`isFinite` guard never fails below 309 digits). -/
def parseChildTaskId (id : String) : Option ParsedChildId :=
  match splitLastDot id.data with
  | some (p, suf) =>
    if suf ≠ [] ∧ suf.all Char.isDigit ∧ p.all (fun c => !isLineTerminator c) then
      some ⟨id, String.mk p, natOfDigits suf⟩
    else none
  | none => none

/-- Embedding of `compareParsedChildIds`: locale-compare the prefixes, then
subtract issue numbers, then locale-compare the raw ids. -/
def compareParsedChildIds (a b : ParsedChildId) : Int :=
  let pfxComparison := localeCompareNumericBase a.pfx b.pfx
  if pfxComparison ≠ 0 then pfxComparison
  else if a.issueNumber ≠ b.issueNumber then
    (a.issueNumber : Int) - (b.issueNumber : Int)
  else localeCompareNumericBase a.rawId b.rawId

/-- A task object; `payload` stands for the other fields of the generic
`T extends TaskWithId`, so identity is finer than the id. -/
structure TaskWithId where
  id : String
  payload : Nat
deriving DecidableEq, Repr

/-- The child entries of a task list, in order: each task whose id parses as a
dotted child id, paired with its parse (the `childEntries` of the source,
minus the index, which is recovered positionally by `scatter`). -/
def taskPairs (tasks : List TaskWithId) : List (ParsedChildId × TaskWithId) :=
  tasks.filterMap (fun t => (parseChildTaskId t.id).map (fun p => (p, t)))

/-- `a` sorts no later than `b` under the source comparator (a JavaScript
stable sort keeps `a` before `b` exactly when the comparator is ≤ 0). -/
def childPairLe (a b : ParsedChildId × TaskWithId) : Prop :=
  compareParsedChildIds a.1 b.1 ≤ 0

instance : DecidableRel childPairLe := fun a b => by
  unfold childPairLe; infer_instance

/-- Write the sorted children back into the child positions: walk the task
list and replace the k-th child slot by the k-th sorted child.  This is the
source loop `result[childEntries[i].index] = sortedChildren[i]`, expressed
positionally (child indices are strictly increasing, so the k-th child slot is
exactly `childEntries[k].index`). -/
def scatter : List TaskWithId → List TaskWithId → List TaskWithId
  | [], _ => []
  | t :: ts, cs =>
    if (parseChildTaskId t.id).isSome then
      match cs with
      | [] => t :: scatter ts []
      | c :: cs2 => c :: scatter ts cs2
    else t :: scatter ts cs

/-- Embedding of `sortDottedChildTaskIds`: under the two small-input guards,
stable-sort the child entries by the comparator and scatter them back into the
child positions.  `Array.prototype.sort` (stable) is modelled by
`List.insertionSort`, which is stable for the same comparator. -/
def sortDottedChildTaskIds (tasks : List TaskWithId) : List TaskWithId :=
  if tasks.length < 2 then tasks
  else
    let entries := taskPairs tasks
    if entries.length < 2 then tasks
    else scatter tasks ((List.insertionSort childPairLe entries).map (fun e => e.2))

/-! Comparator lemmas: the source comparator induces a total preorder. -/

theorem ordToInt_le_zero_iff {o : Ordering} : ordToInt o ≤ 0 ↔ o ≠ .gt := by
  cases o <;> simp [ordToInt]

theorem cmpNat_eq_iff {x y : Nat} : cmpNat x y = .eq ↔ x = y := by
  unfold cmpNat
  split
  · rename_i h
    constructor
    · intro hc; cases hc
    · intro hc; omega
  · split
    · rename_i h; simp [h]
    · rename_i h1 h2
      constructor
      · intro hc; cases hc
      · intro hc; exact absurd hc h2

theorem cmpNat_lt_iff {x y : Nat} : cmpNat x y = .lt ↔ x < y := by
  unfold cmpNat
  split
  · rename_i h; simp [h]
  · split
    · rename_i h
      constructor
      · intro hc; cases hc
      · intro hc; omega
    · rename_i h1 h2
      constructor
      · intro hc; cases hc
      · intro hc; exact absurd hc h1

theorem cmpNat_gt_iff {x y : Nat} : cmpNat x y = .gt ↔ y < x := by
  unfold cmpNat
  split
  · rename_i h
    constructor
    · intro hc; cases hc
    · intro hc; omega
  · split
    · rename_i h
      constructor
      · intro hc; cases hc
      · intro hc; omega
    · rename_i h1 h2
      constructor
      · intro _; omega
      · intro _; rfl

theorem cmpTok_eq_iff {t u : CTok} : cmpTok t u = .eq ↔ t = u := by
  cases t <;> cases u <;> simp [cmpTok, cmpNat_eq_iff]

theorem cmpTok_lt_trans {t u v : CTok} (h1 : cmpTok t u = .lt) (h2 : cmpTok u v = .lt) :
    cmpTok t v = .lt := by
  cases t <;> cases u <;> cases v <;>
    simp [cmpTok, cmpNat_lt_iff] at h1 h2 ⊢ <;> omega

theorem cmpTok_gt_iff {t u : CTok} : cmpTok t u = .gt ↔ cmpTok u t = .lt := by
  cases t <;> cases u <;> simp [cmpTok, cmpNat_lt_iff, cmpNat_gt_iff]

theorem cmpToks_cons (a b : CTok) (as bs : List CTok) :
    cmpToks (a :: as) (b :: bs) = (cmpTok a b).then (cmpToks as bs) := by
  cases h : cmpTok a b <;> simp [cmpToks, h, Ordering.then]

theorem cmpToks_self : ∀ x : List CTok, cmpToks x x = .eq
  | [] => rfl
  | a :: as => by
    rw [cmpToks_cons, cmpTok_eq_iff.mpr rfl, cmpToks_self as]
    rfl

theorem cmpToks_eq_iff : ∀ x y : List CTok, cmpToks x y = .eq ↔ x = y
  | [], [] => by simp [cmpToks]
  | [], _ :: _ => by simp [cmpToks]
  | _ :: _, [] => by simp [cmpToks]
  | a :: as, b :: bs => by
    rw [cmpToks_cons, Ordering.then_eq_eq, cmpTok_eq_iff, cmpToks_eq_iff as bs]
    constructor
    · intro ⟨h1, h2⟩; rw [h1, h2]
    · intro h
      injection h with h1 h2
      exact ⟨h1, h2⟩

theorem cmpToks_lt_trans : ∀ x y z : List CTok,
    cmpToks x y = .lt → cmpToks y z = .lt → cmpToks x z = .lt
  | [], [], _, h1, _ => by cases h1
  | [], _ :: _, [], _, h2 => by cases h2
  | [], _ :: _, _ :: _, _, _ => by simp [cmpToks]
  | _ :: _, [], _, h1, _ => by cases h1
  | _ :: _, _ :: _, [], _, h2 => by cases h2
  | a :: as, b :: bs, c :: cs, h1, h2 => by
    rw [cmpToks_cons, Ordering.then_eq_lt] at h1 h2 ⊢
    rcases h1 with h1 | ⟨h1e, h1t⟩
    · rcases h2 with h2 | ⟨h2e, h2t⟩
      · exact Or.inl (cmpTok_lt_trans h1 h2)
      · rw [← cmpTok_eq_iff.mp h2e]
        exact Or.inl h1
    · rcases h2 with h2 | ⟨h2e, h2t⟩
      · rw [cmpTok_eq_iff.mp h1e]
        exact Or.inl h2
      · refine Or.inr ⟨?_, cmpToks_lt_trans as bs cs h1t h2t⟩
        rw [cmpTok_eq_iff] at h1e h2e ⊢
        rw [h1e, h2e]

theorem cmpToks_gt_iff : ∀ x y : List CTok, cmpToks x y = .gt ↔ cmpToks y x = .lt
  | [], [] => by simp [cmpToks]
  | [], _ :: _ => by simp [cmpToks]
  | _ :: _, [] => by simp [cmpToks]
  | a :: as, b :: bs => by
    rw [cmpToks_cons, cmpToks_cons, Ordering.then_eq_gt, Ordering.then_eq_lt,
      cmpTok_gt_iff, cmpToks_gt_iff as bs]
    have heqs : cmpTok a b = .eq ↔ cmpTok b a = .eq := by
      rw [cmpTok_eq_iff, cmpTok_eq_iff]
      exact eq_comm
    rw [heqs]

theorem ord_ne_gt_iff {o : Ordering} : o ≠ .gt ↔ (o = .lt ∨ o = .eq) := by
  cases o <;> simp

theorem cmpToks_ne_gt_trans {x y z : List CTok}
    (h1 : cmpToks x y ≠ .gt) (h2 : cmpToks y z ≠ .gt) : cmpToks x z ≠ .gt := by
  rw [ord_ne_gt_iff] at h1 h2 ⊢
  rcases h1 with h1 | h1
  · rcases h2 with h2 | h2
    · exact Or.inl (cmpToks_lt_trans x y z h1 h2)
    · rw [← cmpToks_eq_iff y z |>.mp h2]
      exact Or.inl h1
  · rw [cmpToks_eq_iff x y |>.mp h1]
    exact h2

/-- Characterization of the source comparator being ≤ 0 in terms of the
three lexicographic layers. -/
theorem comp_le_zero_iff (a b : ParsedChildId) :
    compareParsedChildIds a b ≤ 0 ↔
      (cmpToks (tokenize a.pfx) (tokenize b.pfx) = .lt) ∨
      (tokenize a.pfx = tokenize b.pfx ∧ a.issueNumber < b.issueNumber) ∨
      (tokenize a.pfx = tokenize b.pfx ∧ a.issueNumber = b.issueNumber ∧
        cmpToks (tokenize a.rawId) (tokenize b.rawId) ≠ .gt) := by
  unfold compareParsedChildIds localeCompareNumericBase
  cases hp : cmpToks (tokenize a.pfx) (tokenize b.pfx) with
  | lt =>
    rw [if_pos (by decide)]
    constructor
    · intro _; exact Or.inl rfl
    · intro _; decide
  | gt =>
    rw [if_pos (by decide)]
    constructor
    · intro hc; exact absurd hc (by decide)
    · intro h
      rcases h with h | ⟨h, _⟩ | ⟨h, _, _⟩
      · cases h
      · rw [h, cmpToks_self] at hp; cases hp
      · rw [h, cmpToks_self] at hp; cases hp
  | eq =>
    have heq : tokenize a.pfx = tokenize b.pfx := (cmpToks_eq_iff _ _).mp hp
    rw [if_neg (by decide)]
    by_cases hn : a.issueNumber = b.issueNumber
    · rw [if_neg (by simp [hn])]
      cases hraw : cmpToks (tokenize a.rawId) (tokenize b.rawId) with
      | lt =>
        constructor
        · intro _; exact Or.inr (Or.inr ⟨heq, hn, by decide⟩)
        · intro _; decide
      | eq =>
        constructor
        · intro _; exact Or.inr (Or.inr ⟨heq, hn, by decide⟩)
        · intro _; decide
      | gt =>
        constructor
        · intro hc; exact absurd hc (by decide)
        · intro h
          rcases h with h | ⟨_, h⟩ | ⟨_, _, h⟩
          · cases h
          · omega
          · exact absurd rfl h
    · rw [if_pos (by simp [hn])]
      constructor
      · intro h
        refine Or.inr (Or.inl ⟨heq, ?_⟩)
        omega
      · intro h
        rcases h with h | ⟨_, h⟩ | ⟨_, h, _⟩
        · cases h
        · omega
        · exact absurd h hn

theorem comp_le_total (a b : ParsedChildId) :
    compareParsedChildIds a b ≤ 0 ∨ compareParsedChildIds b a ≤ 0 := by
  rw [comp_le_zero_iff, comp_le_zero_iff]
  cases hp : cmpToks (tokenize a.pfx) (tokenize b.pfx) with
  | lt => exact Or.inl (Or.inl rfl)
  | gt => exact Or.inr (Or.inl ((cmpToks_gt_iff _ _).mp hp))
  | eq =>
    have heq : tokenize a.pfx = tokenize b.pfx := (cmpToks_eq_iff _ _).mp hp
    rcases Nat.lt_trichotomy a.issueNumber b.issueNumber with hn | hn | hn
    · exact Or.inl (Or.inr (Or.inl ⟨heq, hn⟩))
    · cases hraw : cmpToks (tokenize a.rawId) (tokenize b.rawId) with
      | lt => exact Or.inl (Or.inr (Or.inr ⟨heq, hn, by decide⟩))
      | eq => exact Or.inl (Or.inr (Or.inr ⟨heq, hn, by decide⟩))
      | gt =>
        refine Or.inr (Or.inr (Or.inr ⟨heq.symm, hn.symm, ?_⟩))
        rw [(cmpToks_gt_iff _ _).mp hraw]
        decide
    · exact Or.inr (Or.inr (Or.inl ⟨heq.symm, hn⟩))

theorem comp_le_trans (a b c : ParsedChildId)
    (h1 : compareParsedChildIds a b ≤ 0) (h2 : compareParsedChildIds b c ≤ 0) :
    compareParsedChildIds a c ≤ 0 := by
  rw [comp_le_zero_iff] at h1 h2 ⊢
  rcases h1 with h1 | ⟨h1e, h1n⟩ | ⟨h1e, h1n, h1r⟩
  · rcases h2 with h2 | ⟨h2e, _⟩ | ⟨h2e, _, _⟩
    · exact Or.inl (cmpToks_lt_trans _ _ _ h1 h2)
    · rw [← h2e]; exact Or.inl h1
    · rw [← h2e]; exact Or.inl h1
  · rcases h2 with h2 | ⟨h2e, h2n⟩ | ⟨h2e, h2n, _⟩
    · rw [h1e]; exact Or.inl h2
    · exact Or.inr (Or.inl ⟨h1e.trans h2e, Nat.lt_trans h1n h2n⟩)
    · exact Or.inr (Or.inl ⟨h1e.trans h2e, by omega⟩)
  · rcases h2 with h2 | ⟨h2e, h2n⟩ | ⟨h2e, h2n, h2r⟩
    · rw [h1e]; exact Or.inl h2
    · exact Or.inr (Or.inl ⟨h1e.trans h2e, by omega⟩)
    · exact Or.inr (Or.inr ⟨h1e.trans h2e, h1n.trans h2n, cmpToks_ne_gt_trans h1r h2r⟩)

/-- Equal prefixes force ascending issue numbers under the comparator. -/
theorem comp_le_pfx_eq (a b : ParsedChildId)
    (h : compareParsedChildIds a b ≤ 0) (hp : a.pfx = b.pfx) :
    a.issueNumber ≤ b.issueNumber := by
  rw [comp_le_zero_iff] at h
  rcases h with h | ⟨_, h⟩ | ⟨_, h, _⟩
  · rw [hp, cmpToks_self] at h; cases h
  · omega
  · omega

instance : IsTotal (ParsedChildId × TaskWithId) childPairLe :=
  ⟨fun a b => comp_le_total a.1 b.1⟩

instance : IsTrans (ParsedChildId × TaskWithId) childPairLe :=
  ⟨fun a b c => comp_le_trans a.1 b.1 c.1⟩

/-! Scatter and child-entry lemmas. -/

theorem scatter_length : ∀ (ts cs : List TaskWithId), (scatter ts cs).length = ts.length
  | [], _ => rfl
  | t :: ts, cs => by
    cases hp : (parseChildTaskId t.id).isSome with
    | true =>
      cases cs with
      | nil => simp [scatter, hp, scatter_length ts []]
      | cons c cs2 => simp [scatter, hp, scatter_length ts cs2]
    | false => simp [scatter, hp, scatter_length ts cs]

theorem scatter_getElem?_nonchild :
    ∀ (ts cs : List TaskWithId) (i : Nat) (t : TaskWithId),
      ts[i]? = some t → parseChildTaskId t.id = none → (scatter ts cs)[i]? = some t
  | [], _, i, t, h, _ => by cases i <;> cases h
  | x :: ts, cs, 0, t, h, hn => by
    have hx : x = t := by simpa using h
    subst hx
    simp [scatter, hn]
  | x :: ts, cs, i + 1, t, h, hn => by
    have h' : ts[i]? = some t := by simpa using h
    cases hp : (parseChildTaskId x.id).isSome with
    | true =>
      cases cs with
      | nil => simpa [scatter, hp] using scatter_getElem?_nonchild ts [] i t h' hn
      | cons c cs2 => simpa [scatter, hp] using scatter_getElem?_nonchild ts cs2 i t h' hn
    | false => simpa [scatter, hp] using scatter_getElem?_nonchild ts cs i t h' hn

theorem taskPairs_nil : taskPairs [] = [] := rfl

theorem taskPairs_cons_some {t : TaskWithId} {ts : List TaskWithId} {p : ParsedChildId}
    (hp : parseChildTaskId t.id = some p) :
    taskPairs (t :: ts) = (p, t) :: taskPairs ts := by
  simp [taskPairs, List.filterMap_cons, hp]

theorem taskPairs_cons_none {t : TaskWithId} {ts : List TaskWithId}
    (hp : parseChildTaskId t.id = none) :
    taskPairs (t :: ts) = taskPairs ts := by
  simp [taskPairs, List.filterMap_cons, hp]

theorem taskPairs_mem_parse {ts : List TaskWithId} {e : ParsedChildId × TaskWithId}
    (h : e ∈ taskPairs ts) : parseChildTaskId e.2.id = some e.1 := by
  unfold taskPairs at h
  rw [List.mem_filterMap] at h
  obtain ⟨t, _, ht⟩ := h
  cases hp : parseChildTaskId t.id with
  | none => rw [hp] at ht; cases ht
  | some p =>
    rw [hp] at ht
    have ht2 : some (p, t) = some e := ht
    injection ht2 with ht3
    rw [← ht3]
    exact hp

theorem scatter_cons_child {t : TaskWithId} {ts : List TaskWithId} {p : ParsedChildId}
    (hp : parseChildTaskId t.id = some p) (c : TaskWithId) (cs2 : List TaskWithId) :
    scatter (t :: ts) (c :: cs2) = c :: scatter ts cs2 := by
  simp [scatter, hp]

theorem scatter_cons_nonchild {t : TaskWithId} {ts : List TaskWithId}
    (hp : parseChildTaskId t.id = none) (cs : List TaskWithId) :
    scatter (t :: ts) cs = t :: scatter ts cs := by
  simp [scatter, hp]

theorem taskPairs_scatter :
    ∀ (ts cs : List TaskWithId),
      (∀ c ∈ cs, (parseChildTaskId c.id).isSome = true) →
      cs.length = (taskPairs ts).length →
      taskPairs (scatter ts cs) = taskPairs cs
  | [], cs, _, hlen => by
    rw [taskPairs_nil] at hlen
    simp only [List.length_nil] at hlen
    rw [List.length_eq_zero.mp hlen]
    rfl
  | t :: ts, cs, hcs, hlen => by
    cases hp : parseChildTaskId t.id with
    | some p =>
      have hlen2 : cs.length = (taskPairs ts).length + 1 := by
        rw [hlen, taskPairs_cons_some hp, List.length_cons]
      cases cs with
      | nil => simp at hlen2
      | cons c cs2 =>
        obtain ⟨pc, hpc⟩ := Option.isSome_iff_exists.mp (hcs c (List.mem_cons_self c cs2))
        have hrec := taskPairs_scatter ts cs2
          (fun x hx => hcs x (List.mem_cons_of_mem c hx))
          (by simpa using hlen2)
        rw [scatter_cons_child hp c cs2, taskPairs_cons_some hpc,
          taskPairs_cons_some hpc, hrec]
    | none =>
      have hrec := taskPairs_scatter ts cs hcs
        (by rw [hlen, taskPairs_cons_none hp])
      rw [scatter_cons_nonchild hp cs, taskPairs_cons_none hp, hrec]

theorem taskPairs_map_snd :
    ∀ es : List (ParsedChildId × TaskWithId),
      (∀ e ∈ es, parseChildTaskId e.2.id = some e.1) →
      taskPairs (es.map (fun e => e.2)) = es
  | [], _ => rfl
  | e :: es, h => by
    have he : parseChildTaskId e.2.id = some e.1 := h e (List.mem_cons_self e es)
    have hrec := taskPairs_map_snd es (fun x hx => h x (List.mem_cons_of_mem e hx))
    rw [List.map_cons, taskPairs_cons_some he, hrec]

theorem scatter_self : ∀ ts : List TaskWithId,
    scatter ts ((taskPairs ts).map (fun e => e.2)) = ts
  | [] => rfl
  | t :: ts => by
    cases hp : parseChildTaskId t.id with
    | some p =>
      rw [taskPairs_cons_some hp, List.map_cons]
      rw [show ((p, t) : ParsedChildId × TaskWithId).2 = t from rfl]
      rw [scatter_cons_child hp t ((taskPairs ts).map (fun e => e.2)), scatter_self ts]
    | none =>
      rw [taskPairs_cons_none hp,
        scatter_cons_nonchild hp ((taskPairs ts).map (fun e => e.2)), scatter_self ts]

theorem taskPairs_one_le :
    ∀ (ts : List TaskWithId) (b : TaskWithId), b ∈ ts →
      (parseChildTaskId b.id).isSome = true → 1 ≤ (taskPairs ts).length
  | [], b, hb, _ => by cases hb
  | t :: ts, b, hb, hc => by
    cases hp : parseChildTaskId t.id with
    | some p => rw [taskPairs_cons_some hp]; simp
    | none =>
      rcases List.mem_cons.1 hb with hb | hb
      · rw [hb, hp] at hc; cases hc
      · rw [taskPairs_cons_none hp]
        exact taskPairs_one_le ts b hb hc

theorem taskPairs_two_le :
    ∀ (ts : List TaskWithId) (i j : Nat) (a b : TaskWithId), i < j →
      ts[i]? = some a → ts[j]? = some b →
      (parseChildTaskId a.id).isSome = true → (parseChildTaskId b.id).isSome = true →
      2 ≤ (taskPairs ts).length
  | [], i, _, _, _, _, ha, _, _, _ => by cases i <;> cases ha
  | t :: ts, 0, j, a, b, hij, ha, hb, hca, hcb => by
    have hta : t = a := by simpa using ha
    subst hta
    obtain ⟨j2, hj2⟩ : ∃ j2, j = j2 + 1 := by
      cases j with
      | zero => omega
      | succ j2 => exact ⟨j2, rfl⟩
    subst hj2
    have hb2 : ts[j2]? = some b := by simpa using hb
    have hbmem : b ∈ ts := by
      rw [List.getElem?_eq_some_iff] at hb2
      obtain ⟨h, heq⟩ := hb2
      rw [← heq]
      exact List.getElem_mem h
    have h1 := taskPairs_one_le ts b hbmem hcb
    obtain ⟨p, hp⟩ := Option.isSome_iff_exists.mp hca
    rw [taskPairs_cons_some hp, List.length_cons]
    omega
  | t :: ts, i + 1, j, a, b, hij, ha, hb, hca, hcb => by
    obtain ⟨j2, hj2⟩ : ∃ j2, j = j2 + 1 := by
      cases j with
      | zero => omega
      | succ j2 => exact ⟨j2, rfl⟩
    subst hj2
    have ha2 : ts[i]? = some a := by simpa using ha
    have hb2 : ts[j2]? = some b := by simpa using hb
    have h2 := taskPairs_two_le ts i j2 a b (by omega) ha2 hb2 hca hcb
    cases hp : parseChildTaskId t.id with
    | some p =>
      rw [taskPairs_cons_some hp, List.length_cons]
      omega
    | none =>
      rw [taskPairs_cons_none hp]
      exact h2

theorem sortDotted_eq_of_guards (ts : List TaskWithId)
    (h1 : ¬ ts.length < 2) (h2 : ¬ (taskPairs ts).length < 2) :
    sortDottedChildTaskIds ts =
      scatter ts ((List.insertionSort childPairLe (taskPairs ts)).map (fun e => e.2)) := by
  unfold sortDottedChildTaskIds
  rw [if_neg h1]
  show (if (taskPairs ts).length < 2 then ts else _) = _
  rw [if_neg h2]

theorem sortDotted_eq_self_of_few_children (ts : List TaskWithId)
    (h2 : (taskPairs ts).length < 2) : sortDottedChildTaskIds ts = ts := by
  unfold sortDottedChildTaskIds
  by_cases h1 : ts.length < 2
  · rw [if_pos h1]
  · rw [if_neg h1]
    show (if (taskPairs ts).length < 2 then ts else _) = _
    rw [if_pos h2]

/-- C7: the dotted-child ordering routine is idempotent, preserves length and
the positions and identities of all non-dotted tasks, and in its output any
two dotted ids sharing a prefix carry ascending (non-decreasing) numeric
suffixes. -/
theorem sortDottedChildTaskIds_spec (tasks : List TaskWithId) :
    sortDottedChildTaskIds (sortDottedChildTaskIds tasks) = sortDottedChildTaskIds tasks ∧
    (sortDottedChildTaskIds tasks).length = tasks.length ∧
    (∀ (i : Nat) (t : TaskWithId), tasks[i]? = some t → parseChildTaskId t.id = none →
      (sortDottedChildTaskIds tasks)[i]? = some t) ∧
    (∀ (i j : Nat) (a b : TaskWithId) (pa pb : ParsedChildId), i < j →
      (sortDottedChildTaskIds tasks)[i]? = some a →
      (sortDottedChildTaskIds tasks)[j]? = some b →
      parseChildTaskId a.id = some pa → parseChildTaskId b.id = some pb →
      pa.pfx = pb.pfx → pa.issueNumber ≤ pb.issueNumber) := by
  by_cases hg1 : tasks.length < 2
  · have hout : sortDottedChildTaskIds tasks = tasks := by
      unfold sortDottedChildTaskIds
      rw [if_pos hg1]
    refine ⟨by rw [hout, hout], by rw [hout], ?_, ?_⟩
    · intro i t hi _
      rw [hout]
      exact hi
    · intro i j a b pa pb hij ha hb hpa hpb hpfx
      rw [hout] at hb
      obtain ⟨hj, _⟩ := List.getElem?_eq_some_iff.mp hb
      omega
  · by_cases hg2 : (taskPairs tasks).length < 2
    · have hout : sortDottedChildTaskIds tasks = tasks :=
        sortDotted_eq_self_of_few_children tasks hg2
      refine ⟨by rw [hout, hout], by rw [hout], ?_, ?_⟩
      · intro i t hi _
        rw [hout]
        exact hi
      · intro i j a b pa pb hij ha hb hpa hpb hpfx
        rw [hout] at ha hb
        have h2 := taskPairs_two_le tasks i j a b hij ha hb
          (by rw [hpa]; rfl) (by rw [hpb]; rfl)
        omega
    · have hout := sortDotted_eq_of_guards tasks hg1 hg2
      have hsorted : List.Sorted childPairLe
          (List.insertionSort childPairLe (taskPairs tasks)) :=
        List.sorted_insertionSort childPairLe (taskPairs tasks)
      have hmem : ∀ e ∈ List.insertionSort childPairLe (taskPairs tasks),
          parseChildTaskId e.2.id = some e.1 := by
        intro e he
        exact taskPairs_mem_parse
          ((List.perm_insertionSort childPairLe (taskPairs tasks)).mem_iff.mp he)
      have hcs_child : ∀ c ∈ (List.insertionSort childPairLe (taskPairs tasks)).map
          (fun e => e.2), (parseChildTaskId c.id).isSome = true := by
        intro c hc
        rw [List.mem_map] at hc
        obtain ⟨e, he, hec⟩ := hc
        rw [← hec, hmem e he]
        rfl
      have hcs_len : ((List.insertionSort childPairLe (taskPairs tasks)).map
          (fun e => e.2)).length = (taskPairs tasks).length := by
        rw [List.length_map, List.length_insertionSort]
      have hback : taskPairs (sortDottedChildTaskIds tasks) =
          List.insertionSort childPairLe (taskPairs tasks) := by
        rw [hout, taskPairs_scatter tasks _ hcs_child hcs_len, taskPairs_map_snd _ hmem]
      have hlen : (sortDottedChildTaskIds tasks).length = tasks.length := by
        rw [hout, scatter_length]
      refine ⟨?_, hlen, ?_, ?_⟩
      · have hg1b : ¬ (sortDottedChildTaskIds tasks).length < 2 := by
          rw [hlen]; exact hg1
        have hg2b : ¬ (taskPairs (sortDottedChildTaskIds tasks)).length < 2 := by
          rw [hback, List.length_insertionSort]; exact hg2
        rw [sortDotted_eq_of_guards _ hg1b hg2b, hback,
          List.Sorted.insertionSort_eq hsorted, ← hback]
        exact scatter_self _
      · intro i t hi hn
        rw [hout]
        exact scatter_getElem?_nonchild tasks _ i t hi hn
      · intro i j a b pa pb hij ha hb hpa hpb hpfx
        have hpw : List.Pairwise childPairLe (taskPairs (sortDottedChildTaskIds tasks)) := by
          rw [hback]
          exact hsorted
        unfold taskPairs at hpw
        have hpw2 := List.pairwise_filterMap.mp hpw
        obtain ⟨hi', hai⟩ := List.getElem?_eq_some_iff.mp ha
        obtain ⟨hj', hbj⟩ := List.getElem?_eq_some_iff.mp hb
        have hR := List.pairwise_iff_getElem.mp hpw2 i j hi' hj' hij
        rw [hai, hbj] at hR
        have h1 : (pa, a) ∈ (parseChildTaskId a.id).map (fun p => (p, a)) := by
          rw [hpa]; simp
        have h2 : (pb, b) ∈ (parseChildTaskId b.id).map (fun p => (p, b)) := by
          rw [hpb]; simp
        exact comp_le_pfx_eq pa pb (hR (pa, a) h1 (pb, b) h2) hpfx

theorem sortDottedChildTaskIds_spec_witness :
    sortDottedChildTaskIds (sortDottedChildTaskIds [⟨"x", 5⟩, ⟨"a.10", 1⟩, ⟨"a.2", 2⟩]) =
      sortDottedChildTaskIds [⟨"x", 5⟩, ⟨"a.10", 1⟩, ⟨"a.2", 2⟩] ∧
    (sortDottedChildTaskIds [⟨"x", 5⟩, ⟨"a.10", 1⟩, ⟨"a.2", 2⟩])[0]? = some ⟨"x", 5⟩ ∧
    (2 : Nat) ≤ 10 := by
  refine ⟨(sortDottedChildTaskIds_spec _).1, ?_, ?_⟩
  · exact (sortDottedChildTaskIds_spec [⟨"x", 5⟩, ⟨"a.10", 1⟩, ⟨"a.2", 2⟩]).2.2.1 0
      ⟨"x", 5⟩ (by decide) (by decide)
  · exact (sortDottedChildTaskIds_spec [⟨"x", 5⟩, ⟨"a.10", 1⟩, ⟨"a.2", 2⟩]).2.2.2 1 2
      ⟨"a.2", 2⟩ ⟨"a.10", 1⟩ ⟨"a.2", "a", 2⟩ ⟨"a.10", "a", 10⟩ (by decide) (by decide)
      (by decide) (by decide) (by decide) rfl

end RalphTui
